import Mathlib

/-!
Shallow embedding of the letterpwn move-enumeration and move-scoring core
(src/lib/letterpress-moves.js and src/lib/adjacent.js), together with proofs
of the specification's claims about it.

Bitmasks are natural numbers; JavaScript's 32-bit `x & ~y` is embedded as
`x &&& (0xFFFFFFFF ^^^ y)` (all masks in this program use bits 0..24 only).
Signed quantities (score differences, the game-ender flag) are integers.
The helpers that live outside src/ (`countBits`, `getProtectedBitMask`, the
game constants) are modelled from the spec, as marked on their definitions.
-/

namespace LetterPwn

/-- Embedding of src/lib/adjacent.js: pairs of board position to adjacent
positions, as bitmasks from bits 0-24 of a 5x5 board. -/
def adjacent : List (Nat × Nat) :=
  [(1, 34), (2, 69), (4, 138), (8, 276), (16, 520),
   (32, 1089), (64, 2210), (128, 4420), (256, 8840), (512, 16656),
   (1024, 34848), (2048, 70720), (4096, 141440), (8192, 282880), (16384, 532992),
   (32768, 1115136), (65536, 2263040), (131072, 4526080), (262144, 9052160), (524288, 17055744),
   (1048576, 2129920), (2097152, 5308416), (4194304, 10616832), (8388608, 21233664),
   (16777216, 8912896)]

/-- Embedding of the JavaScript 32-bit bitwise `x & ~y` on the masks this
program manipulates (all below 2^25). -/
def andNot (x y : Nat) : Nat := x &&& (4294967295 ^^^ y)

/-- Fuel-driven population count loop; the fuel argument only serves to make
the recursion structural, see countBits. -/
def countBitsGo : Nat → Nat → Nat
  | 0, _ => 0
  | fuel + 1, n => if n = 0 then 0 else n % 2 + countBitsGo fuel (n / 2)

/-- Modelled from the spec: the bit population count primitive `countBits`
(src/public/javascripts/letterpress-bitmask.js is not under src/). -/
def countBits (n : Nat) : Nat := countBitsGo n n

/-- Modelled from the spec: `protectedMask(ownershipMask)` is the subset of the
ownership mask where every adjacent position (per the adjacency table) is also
set in the mask (letterpress-bitmask.js is not under src/). -/
def getProtectedBitMask (mask : Nat) : Nat :=
  adjacent.foldl
    (fun acc a => if a.1 &&& mask ≠ 0 ∧ andNot a.2 mask = 0 then acc ||| a.1 else acc) 0

/-- Modelled from the spec: the game constants of letterpress-config.js
(not under src/): `MAX_BITMASK` is the full-board bitmask (all boardSize bits
set) and `POSITIONS_TO_WIN` the winning claimed-square threshold. -/
structure LpConfig where
  MAX_BITMASK : Nat
  POSITIONS_TO_WIN : Nat

/-- WordEntry `wordStruct = [word, letters, frequency rank]` consumed by the
move generator and scorer. -/
structure WordStruct where
  word : String
  letters : List Char
  freq : Int
deriving DecidableEq

/-- RawMove `[wordStruct, bitmap]`. -/
def RawMove : Type := WordStruct × Nat

/-- Inner loop of getBoardPositionMap: `boardMap[c].push(Math.pow(2, i))`,
creating the entry on first use of the letter. -/
def pushPos (m : List (Char × List Nat)) (c : Char) (v : Nat) : List (Char × List Nat) :=
  match m with
  | [] => [(c, [v])]
  | (c1, ps) :: rest => if c1 = c then (c1, ps ++ [v]) :: rest else (c1, ps) :: pushPos rest c v

/-- The `for (var i = 0; ...)` loop of getBoardPositionMap, position by position. -/
def buildMap : List Char → Nat → List (Char × List Nat) → List (Char × List Nat)
  | [], _, m => m
  | c :: rest, i, m => buildMap rest (i + 1) (pushPos m c (2 ^ i))

/-- Embedding of getBoardPositionMap: map each letter of the board to the list
of single-bit values of the positions where it occurs. -/
def getBoardPositionMap (board : List Char) : List (Char × List Nat) :=
  buildMap board 0 []

/-- Association-list lookup, `boardPositionMap[c]`: none models JavaScript's
undefined for a letter that is absent from the board. -/
def lookupMap (m : List (Char × List Nat)) (c : Char) : Option (List Nat) :=
  match m with
  | [] => none
  | (c1, ps) :: rest => if c1 = c then some ps else lookupMap rest c

/-- Inner step of the letter histogram `_.countBy(wordStruct[1], _.identity)`. -/
def incrCount (m : List (Char × Nat)) (c : Char) : List (Char × Nat) :=
  match m with
  | [] => [(c, 1)]
  | (c1, n) :: rest => if c1 = c then (c1, n + 1) :: rest else (c1, n) :: incrCount rest c

/-- Embedding of `_.countBy(wordStruct[1], _.identity)`: histogram of the
letters of a word, keys in first-occurrence order. -/
def countByIdentity (ls : List Char) : List (Char × Nat) :=
  ls.foldl incrCount []

/-- The recursive worker `kc(count, start, curr)` of kCombinations, expressed
on the suffix `bits.drop start` of the position list. -/
def kcGo : List Nat → Nat → Nat → List Nat
  | [], _, _ => []
  | b :: bs, count, curr =>
    (if count = 1 then [curr ||| b] else kcGo bs (count - 1) (curr ||| b)) ++ kcGo bs count curr

/-- Embedding of kCombinations: all bitmasks obtained by OR-ing `count` of the
given single-bit values, chosen at strictly increasing indices. -/
def kCombinations (bits : List Nat) (count : Nat) : List Nat :=
  if count ≠ 0 then kcGo bits count 0 else []

/-- The call `kCombinations(boardPositionMap[c], letterCounts[c])` as it
behaves in JavaScript: when the position list is `undefined` (letter absent
from the board) and the count is nonzero, evaluating `bits.length` inside the
loop raises a TypeError, modelled as an error value. -/
def kCombinationsAt (bits : Option (List Nat)) (count : Nat) : Except Unit (List Nat) :=
  if count ≠ 0 then
    match bits with
    | none => Except.error ()
    | some bs => Except.ok (kcGo bs count 0)
  else Except.ok []

/-- The recursive worker `pc(i, curr)` of flattenCombos: the first argument is
the option list `posCombos[i]` still being looped over, the second the
remaining groups `posCombos` after index `i`. -/
def pcGo : List Nat → List (List Nat) → Nat → List Nat
  | [], _, _ => []
  | o :: os, [], curr => [curr ||| o] ++ pcGo os [] curr
  | o :: os, g :: gs, curr => pcGo g gs (curr ||| o) ++ pcGo os (g :: gs) curr
termination_by os rest _ => (rest.length, os.length)

/-- Embedding of flattenCombos: flatten the per-letter position combinations
into full placement bitmasks for the word (depth-first, group order). -/
def flattenCombos (posCombos : List (List Nat)) : List Nat :=
  if posCombos.length > 0 then
    match posCombos with
    | [] => []
    | g :: gs => pcGo g gs 0
  else []

/-- The `for (c in letterCounts)` loop of getMovesForBoard: build one position
combination group per distinct letter of the word, propagating the TypeError
raised on a letter that is absent from the board. -/
def collectPosCombos (bpm : List (Char × List Nat)) :
    List (Char × Nat) → Except Unit (List (List Nat))
  | [] => Except.ok []
  | ck :: rest =>
    match kCombinationsAt (lookupMap bpm ck.1) ck.2 with
    | Except.error e => Except.error e
    | Except.ok g =>
      match collectPosCombos bpm rest with
      | Except.error e => Except.error e
      | Except.ok gs => Except.ok (g :: gs)

/-- Moves contributed by one word: flattened position combinations paired with
the word struct. -/
def movesForWord (bpm : List (Char × List Nat)) (w : WordStruct) :
    Except Unit (List RawMove) :=
  match collectPosCombos bpm (countByIdentity w.letters) with
  | Except.error e => Except.error e
  | Except.ok posCombos => Except.ok ((flattenCombos posCombos).map (fun bitmap => (w, bitmap)))

/-- The `wordStructs.forEach` loop of getMovesForBoard. -/
def getMovesForBoardGo (bpm : List (Char × List Nat)) :
    List WordStruct → Except Unit (List RawMove)
  | [] => Except.ok []
  | w :: ws =>
    match movesForWord bpm w with
    | Except.error e => Except.error e
    | Except.ok ms =>
      match getMovesForBoardGo bpm ws with
      | Except.error e => Except.error e
      | Except.ok rest => Except.ok (ms ++ rest)

/-- Embedding of getMovesForBoard: every way to place each word on the board,
or the JavaScript TypeError raised on a word using a letter absent from the
board. -/
def getMovesForBoard (board : List Char) (wordStructs : List WordStruct) :
    Except Unit (List RawMove) :=
  getMovesForBoardGo (getBoardPositionMap board) wordStructs

/-- ScoredMove: the array built inside getTopMoves, fields in source order
`[0] protectedDiff, [1] countDiff, [2] gameEnder, [3] newOurs, [4] newTheirs,
[5] wordBitMask, [6] wordStruct, [7] vulnerability`. -/
structure ScoredMove where
  protectedDiff : Int
  countDiff : Int
  gameEnder : Int
  newOurs : Nat
  newTheirs : Nat
  wordBitMask : Nat
  wordStruct : WordStruct
  vulnerability : Nat

/-- Embedding of getVulnerability: for each board position claimed in the
mask, add the number of adjacent squares that are not in the mask. -/
def getVulnerability (bitMask : Nat) : Nat :=
  adjacent.foldl
    (fun v a => if a.1 &&& bitMask ≠ 0 then v + countBits (andNot a.2 bitMask) else v) 0

/-- Scoring of one move inside getTopMoves (the body of the `moves.map`). -/
def scoreMove (cfg : LpConfig) (theirsProtectedBitMask oursBitMask theirsBitMask : Nat)
    (move : RawMove) : ScoredMove :=
  let wordStruct := move.1
  let wordBitMask := move.2
  let newOursBitMask := andNot wordBitMask theirsProtectedBitMask ||| oursBitMask
  let newOursProtectedBitMask := getProtectedBitMask newOursBitMask
  let newTheirsBitMask := andNot theirsBitMask newOursBitMask
  let newTheirsProtectedBitMask := getProtectedBitMask newTheirsBitMask
  let newOursCount := countBits newOursBitMask
  let newTheirsCount := countBits newTheirsBitMask
  let newOursProtectedCount := countBits newOursProtectedBitMask
  let newTheirsProtectedCount := countBits newTheirsProtectedBitMask
  let vulnerability := getVulnerability newOursProtectedBitMask
  let gameEnder : Int :=
    if newOursBitMask ||| newTheirsBitMask = cfg.MAX_BITMASK then
      (if newOursCount ≥ cfg.POSITIONS_TO_WIN then 1 else -1)
    else 0
  { protectedDiff := (newOursProtectedCount : Int) - (newTheirsProtectedCount : Int)
    countDiff := (newOursCount : Int) - (newTheirsCount : Int)
    gameEnder := gameEnder
    newOurs := newOursBitMask
    newTheirs := newTheirsBitMask
    wordBitMask := wordBitMask
    wordStruct := wordStruct
    vulnerability := vulnerability }

/-- The `movesScoredForGameState` list of getTopMoves. -/
def scoreMovesForGameState (cfg : LpConfig) (moves : List RawMove)
    (oursBitMask theirsBitMask : Nat) : List ScoredMove :=
  moves.map (scoreMove cfg (getProtectedBitMask theirsBitMask) oursBitMask theirsBitMask)

/-- JavaScript's `x || y` on comparator results: the first operand unless it
is zero. -/
def jsOr (x y : Int) : Int := if x = 0 then y else x

/-- Embedding of the byBestMove comparator. -/
def byBestMove (a b : ScoredMove) : Int :=
  jsOr (b.gameEnder - a.gameEnder)
    (jsOr (b.protectedDiff - a.protectedDiff)
      (jsOr ((a.vulnerability : Int) - (b.vulnerability : Int))
        (jsOr (b.countDiff - a.countDiff)
          (a.wordStruct.freq - b.wordStruct.freq))))

/-- The `.sort(byBestMove)` call: a stable sort consistent with the comparator. -/
def sortMoves (l : List ScoredMove) : List ScoredMove :=
  l.mergeSort (fun a b => byBestMove a b ≤ 0)

/-- The stateful filter of filterMoves, threading the running last-accepted
`protectedDiff + countDiff` total and the set of already-emitted word texts. -/
def filterMovesGo : List ScoredMove → Int → List String → List ScoredMove
  | [], _, _ => []
  | m :: rest, latestScore, seen =>
    if m.wordStruct.word ∈ seen ∨ m.protectedDiff + m.countDiff = latestScore then
      filterMovesGo rest latestScore seen
    else m :: filterMovesGo rest (m.protectedDiff + m.countDiff) (seen ++ [m.wordStruct.word])

/-- Embedding of filterMoves: the running total starts at 0 and the seen set
empty. -/
def filterMoves (moves : List ScoredMove) : List ScoredMove :=
  filterMovesGo moves 0 []

/-- Output tuple of getTopMoves:
`["word", wordBitMask, newOursBitMask, newTheirsBitMask, gameEnder]`. -/
structure TopMove where
  word : String
  wordBitMask : Nat
  newOurs : Nat
  newTheirs : Nat
  gameEnder : Int

/-- The scored pipeline of getTopMoves before the final output projection:
score, sort by byBestMove, filter, and keep the first 19. -/
def topMovesScored (cfg : LpConfig) (moves : List RawMove)
    (oursBitMask theirsBitMask : Nat) : List ScoredMove :=
  (filterMoves (sortMoves (scoreMovesForGameState cfg moves oursBitMask theirsBitMask))).take 19

/-- Embedding of getTopMoves. -/
def getTopMoves (cfg : LpConfig) (moves : List RawMove)
    (oursBitMask theirsBitMask : Nat) : List TopMove :=
  (topMovesScored cfg moves oursBitMask theirsBitMask).map
    (fun m => ⟨m.wordStruct.word, m.wordBitMask, m.newOurs, m.newTheirs, m.gameEnder⟩)

end LetterPwn

namespace LetterPwn

/-! ### Basic facts about the modelled bit primitives -/

theorem countBitsGo_congr : ∀ f1 f2 n, n ≤ f1 → n ≤ f2 → countBitsGo f1 n = countBitsGo f2 n := by
  intro f1
  induction f1 with
  | zero =>
    intro f2 n h1 _
    interval_cases n
    cases f2 <;> simp [countBitsGo]
  | succ f ih =>
    intro f2 n h1 h2
    by_cases hn : n = 0
    · subst hn; cases f2 <;> simp [countBitsGo]
    · obtain ⟨f2p, rfl⟩ : ∃ k, f2 = k + 1 := ⟨f2 - 1, by omega⟩
      simp only [countBitsGo, if_neg hn]
      rw [ih f2p (n / 2) (by omega) (by omega)]

theorem countBits_eq (n : Nat) : countBits n = if n = 0 then 0 else n % 2 + countBits (n / 2) := by
  by_cases hn : n = 0
  · subst hn; rfl
  · obtain ⟨m, rfl⟩ : ∃ k, n = k + 1 := ⟨n - 1, by omega⟩
    simp only [if_neg hn, countBits, countBitsGo]
    rw [countBitsGo_congr m ((m + 1) / 2) ((m + 1) / 2) (by omega) (by omega)]

theorem countBits_zero : countBits 0 = 0 := rfl

theorem countBits_double (x : Nat) : countBits (2 * x) = countBits x := by
  by_cases hx : x = 0
  · subst hx; rfl
  · rw [countBits_eq (2 * x), if_neg (by omega)]
    have h1 : 2 * x % 2 = 0 := by omega
    have h2 : 2 * x / 2 = x := by omega
    rw [h1, h2, Nat.zero_add]

theorem countBits_two_pow (e : Nat) : countBits (2 ^ e) = 1 := by
  induction e with
  | zero => rfl
  | succ k ih => rw [pow_succ, mul_comm, countBits_double]; exact ih

theorem lor_div_two (a b : Nat) : (a ||| b) / 2 = a / 2 ||| b / 2 := by
  apply Nat.eq_of_testBit_eq
  intro i
  rw [Nat.testBit_lor, ← Nat.testBit_add_one, ← Nat.testBit_add_one, ← Nat.testBit_add_one,
    Nat.testBit_lor]

theorem land_div_two (a b : Nat) : (a &&& b) / 2 = a / 2 &&& b / 2 := by
  apply Nat.eq_of_testBit_eq
  intro i
  rw [Nat.testBit_land, ← Nat.testBit_add_one, ← Nat.testBit_add_one, ← Nat.testBit_add_one,
    Nat.testBit_land]

theorem countBits_lor_disjoint : ∀ a, ∀ b, a &&& b = 0 → countBits (a ||| b) = countBits a + countBits b := by
  intro a
  induction a using Nat.strong_induction_on with
  | _ a ih =>
    intro b hab
    by_cases ha : a = 0
    · subst ha; rw [Nat.zero_or, countBits_zero, Nat.zero_add]
    by_cases hb : b = 0
    · subst hb; rw [Nat.or_zero, countBits_zero, Nat.add_zero]
    have hd : a / 2 &&& b / 2 = 0 := by rw [← land_div_two, hab]
    have hrec := ih (a / 2) (by omega) (b / 2) hd
    have hbit : ¬(a % 2 = 1 ∧ b % 2 = 1) := by
      rintro ⟨h1, h2⟩
      have ht := Nat.testBit_land a b 0
      rw [hab] at ht
      simp only [Nat.zero_testBit, Nat.testBit_zero] at ht
      rw [h1, h2] at ht
      simp at ht
    have hiff : (decide ((a ||| b) % 2 = 1) = true) ↔
        ((decide (a % 2 = 1) || decide (b % 2 = 1)) = true) := by
      have ht := Nat.testBit_lor a b 0
      simp only [Nat.testBit_zero] at ht
      rw [ht]
    simp only [decide_eq_true_eq, Bool.or_eq_true] at hiff
    have hor0 : a ||| b ≠ 0 := by
      intro h
      apply ha
      apply Nat.eq_of_testBit_eq
      intro i
      have ht := Nat.testBit_lor a b i
      rw [h] at ht
      simp only [Nat.zero_testBit] at ht ⊢
      exact (Bool.or_eq_false_iff.mp ht.symm).1
    rw [countBits_eq (a ||| b), if_neg hor0, lor_div_two, hrec,
      countBits_eq a, if_neg ha, countBits_eq b, if_neg hb]
    omega

theorem testBit_andNot_of_lt {x : Nat} (hx : x < 2 ^ 32) (y j : Nat) :
    Nat.testBit (andNot x y) j = (Nat.testBit x j && !Nat.testBit y j) := by
  unfold andNot
  rw [Nat.testBit_land, Nat.testBit_xor]
  by_cases hj : j < 32
  · have : Nat.testBit 4294967295 j = true := by
      have : (4294967295 : Nat) = 2 ^ 32 - 1 := by norm_num
      rw [this, Nat.testBit_two_pow_sub_one]
      simpa using hj
    rw [this]
    cases Nat.testBit y j <;> cases Nat.testBit x j <;> rfl
  · have hxj : Nat.testBit x j = false := by
      apply Nat.testBit_lt_two_pow
      calc x < 2 ^ 32 := hx
        _ ≤ 2 ^ j := Nat.pow_le_pow_right (by omega) (by omega)
    have hmj : Nat.testBit 4294967295 j = false := by
      have : (4294967295 : Nat) = 2 ^ 32 - 1 := by norm_num
      rw [this, Nat.testBit_two_pow_sub_one]
      simpa using hj
    rw [hxj, hmj]
    cases Nat.testBit y j <;> rfl

theorem andNot_bits_le (x y j : Nat) (h : Nat.testBit (andNot x y) j = true) :
    Nat.testBit x j = true := by
  unfold andNot at h
  rw [Nat.testBit_land] at h
  exact (Bool.and_eq_true_iff.mp h).1

end LetterPwn

namespace LetterPwn

/-! ### Helper facts and concrete fixtures used by the claim theorems -/

theorem and_bnot_absorb (p q : Bool) : (p && (q && !p)) = false := by
  cases p <;> cases q <;> rfl

/-- The spec's vulnerability formula, parameterised by the mask whose set bits
are summed over and by the mask that is complemented against: the sum, over
each set bit of `mask` (enumerated through the adjacency table), of the
population count of its adjacent squares not set in `ours`. -/
def vulnerabilitySpec (mask ours : Nat) : Nat :=
  (adjacent.map (fun a => if a.1 &&& mask ≠ 0 then countBits (andNot a.2 ours) else 0)).sum

theorem vuln_foldl_eq_sum (mask : Nat) : ∀ (l : List (Nat × Nat)) (init : Nat),
    l.foldl (fun v a => if a.1 &&& mask ≠ 0 then v + countBits (andNot a.2 mask) else v) init
      = init + (l.map (fun a => if a.1 &&& mask ≠ 0 then countBits (andNot a.2 mask) else 0)).sum := by
  intro l
  induction l with
  | nil => intro init; simp
  | cons a t ih =>
    intro init
    simp only [List.foldl_cons, List.map_cons, List.sum_cons]
    by_cases h : a.1 &&& mask ≠ 0
    · rw [if_pos h, if_pos h, ih]; omega
    · rw [if_neg h, if_neg h, ih]; omega

theorem getVulnerability_eq_spec_self (mask : Nat) :
    getVulnerability mask = vulnerabilitySpec mask mask := by
  unfold getVulnerability vulnerabilitySpec
  rw [vuln_foldl_eq_sum, Nat.zero_add]

/-- Fixture word used by concrete witnesses and counterexamples. -/
def plusWord : WordStruct := ⟨"plus", ['p', 'l', 'u', 's', 'x'], 1⟩

/-! ### Claim C1 -/

/-- Claim C1 as stated is false: the counterexample plays the plus shape
{bits 7, 11, 12, 13, 17}; the protected mask of the resulting ours is bit 12
alone, the code computes vulnerability 4 = popcount(adjacent(12) & ~protected),
while the spec's formula popcount(adjacent(12) & ~newOurs) gives 0 because all
neighbours of a protected square are ours. -/
theorem vulnerabilityFormulaCex :
    ∃ m ∈ scoreMovesForGameState ⟨33554431, 13⟩ [(plusWord, 145536)] 0 0,
      m.vulnerability ≠ vulnerabilitySpec (getProtectedBitMask m.newOurs) m.newOurs := by
  decide

/-- Claim C1 (amended): for every move scored by getTopMoves, the vulnerability
value equals the sum, over each set bit b of newOursProtected, of the
population count of adjacent(b) & ~newOursProtected — the complement is taken
against the protected mask itself, not against newOurs. -/
theorem vulnerabilityFormulaAmended (cfg : LpConfig) (moves : List RawMove)
    (ours theirs : Nat) (m : ScoredMove)
    (hm : m ∈ scoreMovesForGameState cfg moves ours theirs) :
    m.vulnerability =
      vulnerabilitySpec (getProtectedBitMask m.newOurs) (getProtectedBitMask m.newOurs) := by
  simp only [scoreMovesForGameState, List.mem_map] at hm
  obtain ⟨mv, _hmv, rfl⟩ := hm
  simp only [scoreMove]
  exact getVulnerability_eq_spec_self _

/-- Witness for vulnerabilityFormulaAmended at a concrete scored move. -/
theorem vulnerabilityFormulaAmended_witness :
    scoreMove ⟨33554431, 13⟩ (getProtectedBitMask 0) 0 0 (plusWord, 145536) ∈
        scoreMovesForGameState ⟨33554431, 13⟩ [(plusWord, 145536)] 0 0 ∧
      (scoreMove ⟨33554431, 13⟩ (getProtectedBitMask 0) 0 0 (plusWord, 145536)).vulnerability =
        vulnerabilitySpec
          (getProtectedBitMask
            (scoreMove ⟨33554431, 13⟩ (getProtectedBitMask 0) 0 0 (plusWord, 145536)).newOurs)
          (getProtectedBitMask
            (scoreMove ⟨33554431, 13⟩ (getProtectedBitMask 0) 0 0 (plusWord, 145536)).newOurs) :=
  ⟨List.Mem.head _,
    vulnerabilityFormulaAmended ⟨33554431, 13⟩ [(plusWord, 145536)] 0 0 _ (List.Mem.head _)⟩

/-! ### Claim C2 -/

/-- Claim C2 is contradicted by the code: for a word using a letter that does
not occur on the board, `boardPositionMap[c]` is undefined and the loop bound
`bits.length` inside kCombinations raises a TypeError instead of yielding zero
RawMoves; the whole getMovesForBoard call fails. -/
theorem absentLetterRaisesTypeError :
    getMovesForBoard ['a'] [⟨"b", ['b'], 1⟩] = Except.error () := rfl

/-! ### Claim C4 -/

/-- Claim C4: for every scored move, gameEnder is 0 whenever
newOurs ||| newTheirs differs from the full-board bitmask; when they are
equal, it is 1 if popcount(newOurs) reaches the win threshold and -1
otherwise. -/
theorem gameEnderRule (cfg : LpConfig) (moves : List RawMove) (ours theirs : Nat)
    (m : ScoredMove) (hm : m ∈ scoreMovesForGameState cfg moves ours theirs) :
    (m.newOurs ||| m.newTheirs ≠ cfg.MAX_BITMASK → m.gameEnder = 0) ∧
    (m.newOurs ||| m.newTheirs = cfg.MAX_BITMASK →
      m.gameEnder = if countBits m.newOurs ≥ cfg.POSITIONS_TO_WIN then 1 else -1) := by
  simp only [scoreMovesForGameState, List.mem_map] at hm
  obtain ⟨mv, _hmv, rfl⟩ := hm
  simp only [scoreMove]
  constructor
  · intro h
    rw [if_neg h]
  · intro h
    rw [if_pos h]

/-- Witness for gameEnderRule: a board-filling move on a tiny full mask. -/
theorem gameEnderRule_witness :
    scoreMove ⟨3, 1⟩ (getProtectedBitMask 0) 0 0 (plusWord, 3) ∈
        scoreMovesForGameState ⟨3, 1⟩ [(plusWord, 3)] 0 0 ∧
      ((scoreMove ⟨3, 1⟩ (getProtectedBitMask 0) 0 0 (plusWord, 3)).newOurs |||
            (scoreMove ⟨3, 1⟩ (getProtectedBitMask 0) 0 0 (plusWord, 3)).newTheirs ≠
          (⟨3, 1⟩ : LpConfig).MAX_BITMASK →
        (scoreMove ⟨3, 1⟩ (getProtectedBitMask 0) 0 0 (plusWord, 3)).gameEnder = 0) ∧
      ((scoreMove ⟨3, 1⟩ (getProtectedBitMask 0) 0 0 (plusWord, 3)).newOurs |||
            (scoreMove ⟨3, 1⟩ (getProtectedBitMask 0) 0 0 (plusWord, 3)).newTheirs =
          (⟨3, 1⟩ : LpConfig).MAX_BITMASK →
        (scoreMove ⟨3, 1⟩ (getProtectedBitMask 0) 0 0 (plusWord, 3)).gameEnder =
          if countBits (scoreMove ⟨3, 1⟩ (getProtectedBitMask 0) 0 0 (plusWord, 3)).newOurs ≥
              (⟨3, 1⟩ : LpConfig).POSITIONS_TO_WIN then 1 else -1) := by
  refine ⟨List.Mem.head _, ?_⟩
  exact gameEnderRule ⟨3, 1⟩ [(plusWord, 3)] 0 0 _ (List.Mem.head _)

/-! ### Claim C8 -/

/-- Fixture: the word "cab" of scenario B. -/
def cabWord : WordStruct := ⟨"cab", ['c', 'a', 'b'], 1⟩

/-- Claim C8: on the board "abcb" the position map is a:[1], b:[2,8], c:[4],
and the word "cab" yields exactly the two RawMoves with placement bitmasks 7
and 13. -/
theorem scenarioB :
    getBoardPositionMap ['a', 'b', 'c', 'b'] = [('a', [1]), ('b', [2, 8]), ('c', [4])] ∧
    getMovesForBoard ['a', 'b', 'c', 'b'] [cabWord] =
      Except.ok [(cabWord, 7), (cabWord, 13)] := by
  constructor
  · decide
  · simp [getMovesForBoard, getMovesForBoardGo, movesForWord, collectPosCombos, countByIdentity,
      incrCount, getBoardPositionMap, buildMap, pushPos, lookupMap, kCombinationsAt, kcGo,
      flattenCombos, pcGo]

/-! ### Claim C9 -/

/-- Claim C9: the resulting ownership masks of every scored move are disjoint,
for input masks within the 32-bit range the JavaScript bitwise operators work
in (the caller contract of the spec keeps them within boardSize bits). -/
theorem newMasksDisjoint (cfg : LpConfig) (moves : List RawMove) (ours theirs : Nat)
    (h32 : theirs < 2 ^ 32) (m : ScoredMove)
    (hm : m ∈ scoreMovesForGameState cfg moves ours theirs) :
    m.newOurs &&& m.newTheirs = 0 := by
  simp only [scoreMovesForGameState, List.mem_map] at hm
  obtain ⟨mv, _hmv, rfl⟩ := hm
  simp only [scoreMove]
  apply Nat.eq_of_testBit_eq
  intro j
  rw [Nat.testBit_land, testBit_andNot_of_lt h32, Nat.zero_testBit, and_bnot_absorb]

/-- Witness for newMasksDisjoint at a concrete input. -/
theorem newMasksDisjoint_witness :
    (1 : Nat) < 2 ^ 32 ∧
      scoreMove ⟨3, 1⟩ (getProtectedBitMask 1) 0 1 (plusWord, 2) ∈
        scoreMovesForGameState ⟨3, 1⟩ [(plusWord, 2)] 0 1 ∧
      (scoreMove ⟨3, 1⟩ (getProtectedBitMask 1) 0 1 (plusWord, 2)).newOurs &&&
          (scoreMove ⟨3, 1⟩ (getProtectedBitMask 1) 0 1 (plusWord, 2)).newTheirs = 0 :=
  ⟨by norm_num, List.Mem.head _,
    newMasksDisjoint ⟨3, 1⟩ [(plusWord, 2)] 0 1 (by norm_num) _ (List.Mem.head _)⟩

/-! ### Claim C10 -/

/-- Claim C10: filterMoves starts its running last-accepted total at 0, so a
sorted list whose head has protectedDiff + countDiff equal to 0 has that best
move dropped, the filter continuing exactly as if the head were absent. -/
theorem filterMovesDropsZeroTotalHead (m : ScoredMove) (rest : List ScoredMove)
    (h : m.protectedDiff + m.countDiff = 0) :
    filterMoves (m :: rest) = filterMoves rest := by
  simp [filterMoves, filterMovesGo, h]

/-- Fixture move whose protectedDiff + countDiff is 0. -/
def zeroTotalMove : ScoredMove := ⟨0, 0, 0, 0, 0, 0, plusWord, 0⟩

/-- Witness for filterMovesDropsZeroTotalHead on a concrete one-move list. -/
theorem filterMovesDropsZeroTotalHead_witness :
    zeroTotalMove.protectedDiff + zeroTotalMove.countDiff = 0 ∧
      filterMoves [zeroTotalMove] = filterMoves [] :=
  ⟨by decide, filterMovesDropsZeroTotalHead zeroTotalMove [] (by decide)⟩

end LetterPwn

namespace LetterPwn

/-! ### Facts about the comparator, the sort and the filter -/

theorem jsOr_nonpos (x y : Int) : jsOr x y ≤ 0 ↔ (x < 0 ∨ (x = 0 ∧ y ≤ 0)) := by
  unfold jsOr
  split_ifs with h <;> omega

theorem jsOr_nonneg (x y : Int) : 0 ≤ jsOr x y ↔ (0 < x ∨ (x = 0 ∧ 0 ≤ y)) := by
  unfold jsOr
  split_ifs with h <;> omega

theorem byBestMove_trans (a b c : ScoredMove)
    (h1 : byBestMove a b ≤ 0) (h2 : byBestMove b c ≤ 0) : byBestMove a c ≤ 0 := by
  simp only [byBestMove, jsOr_nonpos] at h1 h2 ⊢
  omega

theorem byBestMove_total (a b : ScoredMove) :
    byBestMove a b ≤ 0 ∨ byBestMove b a ≤ 0 := by
  simp only [byBestMove, jsOr_nonpos]
  omega

theorem byBestMove_nonneg_of (a b : ScoredMove) (h : byBestMove a b ≤ 0) :
    0 ≤ byBestMove b a := by
  simp only [byBestMove, jsOr_nonpos] at h
  simp only [byBestMove, jsOr_nonneg]
  omega

theorem sortMoves_pairwise (l : List ScoredMove) :
    (sortMoves l).Pairwise (fun a b => byBestMove a b ≤ 0) := by
  have h := @List.sorted_mergeSort ScoredMove
    (fun a b : ScoredMove => decide (byBestMove a b ≤ 0))
    (fun a b c h1 h2 => by
      simp only [decide_eq_true_eq] at h1 h2 ⊢
      exact byBestMove_trans a b c h1 h2)
    (fun a b => by
      simp only [Bool.or_eq_true, decide_eq_true_eq]
      exact byBestMove_total a b)
    l
  unfold sortMoves
  exact h.imp (fun hab => of_decide_eq_true hab)

theorem filterMovesGo_sublist : ∀ (l : List ScoredMove) (t : Int) (seen : List String),
    (filterMovesGo l t seen).Sublist l := by
  intro l
  induction l with
  | nil => intro t seen; exact List.Sublist.refl []
  | cons m rest ih =>
    intro t seen
    rw [filterMovesGo]
    split_ifs with h
    · exact (ih _ _).cons m
    · exact (ih _ _).cons₂ m

theorem filterMoves_sublist (l : List ScoredMove) : (filterMoves l).Sublist l :=
  filterMovesGo_sublist l 0 []

/-! ### Claim C5 -/

/-- Claim C5: in the sorted, filtered and truncated scored list from which
getTopMoves projects its output, no entry is strictly better than an earlier
entry under the byBestMove tie-break chain (gameEnder descending,
protectedDiff descending, vulnerability ascending, countDiff descending,
commonness rank ascending). -/
theorem topMovesSortedByBestMove (cfg : LpConfig) (moves : List RawMove)
    (ours theirs : Nat) :
    (topMovesScored cfg moves ours theirs).Pairwise
      (fun earlier later => ¬ byBestMove later earlier < 0) := by
  unfold topMovesScored
  refine List.Pairwise.sublist (List.take_sublist _ _)
    (List.Pairwise.sublist (filterMoves_sublist _) ?_)
  refine (sortMoves_pairwise _).imp ?_
  intro a b h hlt
  have := byBestMove_nonneg_of a b h
  omega

/-! ### Claim C6 -/

theorem filterMovesGo_words_nodup : ∀ (l : List ScoredMove) (t : Int) (seen : List String),
    ((filterMovesGo l t seen).map (fun m => m.wordStruct.word)).Nodup ∧
    ∀ w ∈ (filterMovesGo l t seen).map (fun m => m.wordStruct.word), w ∉ seen := by
  intro l
  induction l with
  | nil =>
    intro t seen
    rw [filterMovesGo]
    exact ⟨List.nodup_nil, by simp⟩
  | cons m rest ih =>
    intro t seen
    rw [filterMovesGo]
    split_ifs with h
    · exact ih _ _
    · push_neg at h
      obtain ⟨hw, _⟩ := h
      obtain ⟨ihnd, ihseen⟩ := ih (m.protectedDiff + m.countDiff) (seen ++ [m.wordStruct.word])
      constructor
      · simp only [List.map_cons, List.nodup_cons]
        refine ⟨fun hmem => ?_, ihnd⟩
        exact absurd (by simp) (ihseen _ hmem)
      · intro w hwmem
        simp only [List.map_cons, List.mem_cons] at hwmem
        rcases hwmem with rfl | hwmem
        · exact hw
        · intro hws
          exact (ihseen w hwmem) (by simp [hws])

/-- Claim C6: the list returned by getTopMoves has at most 19 entries, and no
two entries carry the same word text. -/
theorem getTopMovesBoundedAndDistinct (cfg : LpConfig) (moves : List RawMove)
    (ours theirs : Nat) :
    (getTopMoves cfg moves ours theirs).length ≤ 19 ∧
    ((getTopMoves cfg moves ours theirs).map TopMove.word).Nodup := by
  constructor
  · unfold getTopMoves topMovesScored
    rw [List.length_map]
    exact List.length_take_le _ _
  · unfold getTopMoves topMovesScored
    rw [List.map_map]
    have h := (filterMovesGo_words_nodup
      (sortMoves (scoreMovesForGameState cfg moves ours theirs)) 0 []).1
    refine List.Nodup.sublist ?_ h
    exact List.Sublist.map _ (List.take_sublist _ _)

end LetterPwn

namespace LetterPwn

/-! ### Combinatorics of kCombinations -/

theorem kcGo_length : ∀ (bs : List Nat) (count curr : Nat), 1 ≤ count →
    (kcGo bs count curr).length = Nat.choose bs.length count := by
  intro bs
  induction bs with
  | nil =>
    intro count curr h
    rw [kcGo, List.length_nil, Nat.choose_eq_zero_of_lt (by omega)]
  | cons b bs ih =>
    intro count curr h
    rw [kcGo]
    by_cases h1 : count = 1
    · subst h1
      rw [if_pos rfl, List.length_append, List.length_cons, ih 1 curr le_rfl,
        Nat.choose_one_right, Nat.choose_one_right]
      simp only [List.length_cons, List.length_nil]
      omega
    · rw [if_neg h1]
      obtain ⟨k, rfl⟩ : ∃ k, count = k + 1 := ⟨count - 1, by omega⟩
      have hk : 1 ≤ k := by omega
      rw [List.length_append, List.length_cons, Nat.choose_succ_succ',
        Nat.add_sub_cancel, ih k _ hk, ih (k + 1) _ (by omega)]

theorem kcGo_mem : ∀ (bs : List Nat) (count curr : Nat), 1 ≤ count →
    ∀ m ∈ kcGo bs count curr,
      ∃ s : List Nat, s.Sublist bs ∧ s.length = count ∧ m = s.foldl (fun x y => x ||| y) curr := by
  intro bs
  induction bs with
  | nil =>
    intro count curr _ m hm
    rw [kcGo] at hm
    simp at hm
  | cons b bs ih =>
    intro count curr h m hm
    rw [kcGo] at hm
    rcases List.mem_append.mp hm with hm1 | hm2
    · by_cases h1 : count = 1
      · subst h1
        rw [if_pos rfl, List.mem_singleton] at hm1
        subst hm1
        exact ⟨[b], (List.nil_sublist bs).cons₂ b, rfl, rfl⟩
      · rw [if_neg h1] at hm1
        obtain ⟨s, hs, hl, hf⟩ := ih (count - 1) (curr ||| b) (by omega) m hm1
        refine ⟨b :: s, hs.cons₂ b, ?_, hf⟩
        rw [List.length_cons, hl]
        omega
    · obtain ⟨s, hs, hl, hf⟩ := ih count curr h m hm2
      exact ⟨s, hs.cons b, hl, hf⟩

theorem testBit_foldl_lor_low : ∀ (s : List Nat) (curr j : Nat),
    Nat.testBit (s.foldl (fun x y => x ||| y) curr) j = true →
    Nat.testBit curr j = true ∨ ∃ x ∈ s, Nat.testBit x j = true := by
  intro s
  induction s with
  | nil => intro curr j h; exact Or.inl h
  | cons x s ih =>
    intro curr j h
    rcases ih _ _ h with h1 | ⟨y, hy, hj⟩
    · rw [Nat.testBit_lor] at h1
      rcases Bool.or_eq_true_iff.mp h1 with h2 | h2
      · exact Or.inl h2
      · exact Or.inr ⟨x, List.mem_cons_self x s, h2⟩
    · exact Or.inr ⟨y, List.mem_cons_of_mem x hy, hj⟩

theorem testBit_foldl_lor_high : ∀ (s : List Nat) (curr j : Nat),
    Nat.testBit curr j = true →
    Nat.testBit (s.foldl (fun x y => x ||| y) curr) j = true := by
  intro s
  induction s with
  | nil => intro curr j h; exact h
  | cons x s ih =>
    intro curr j h
    apply ih
    rw [Nat.testBit_lor, h]
    rfl

theorem kcGo_nodup : ∀ (es : List Nat) (count curr : Nat),
    es.Nodup → (∀ e ∈ es, Nat.testBit curr e = false) → 1 ≤ count →
    (kcGo (es.map (fun e => 2 ^ e)) count curr).Nodup := by
  intro es
  induction es with
  | nil =>
    intro count curr _ _ _
    rw [List.map_nil, kcGo]
    exact List.nodup_nil
  | cons e es ih =>
    intro count curr hnd hcurr hc
    have hnd1 := List.nodup_cons.mp hnd
    rw [List.map_cons, kcGo]
    by_cases h1 : count = 1
    · subst h1
      rw [if_pos rfl, List.singleton_append, List.nodup_cons]
      constructor
      · intro hmem
        obtain ⟨s, hs, _hl, hf⟩ := kcGo_mem _ 1 curr le_rfl _ hmem
        have he : Nat.testBit (curr ||| 2 ^ e) e = true := by
          rw [Nat.testBit_lor, Nat.testBit_two_pow_self, Bool.or_true]
        rw [hf] at he
        rcases testBit_foldl_lor_low s curr e he with h2 | ⟨x, hx, hxe⟩
        · rw [hcurr e (List.mem_cons_self _ _)] at h2
          exact Bool.false_ne_true h2
        · obtain ⟨e2, he2, rfl⟩ := List.mem_map.mp (hs.subset hx)
          rw [Nat.testBit_two_pow] at hxe
          have he3 : e2 = e := of_decide_eq_true hxe
          exact hnd1.1 (he3 ▸ he2)
      · exact ih 1 curr hnd1.2 (fun e2 h2 => hcurr e2 (List.mem_cons_of_mem _ h2)) le_rfl
    · rw [if_neg h1]
      apply List.Nodup.append
      · apply ih (count - 1) (curr ||| 2 ^ e) hnd1.2 ?_ (by omega)
        intro e2 h2
        rw [Nat.testBit_lor, hcurr e2 (List.mem_cons_of_mem _ h2),
          Nat.testBit_two_pow_of_ne (fun he => hnd1.1 (by rw [he]; exact h2))]
        rfl
      · exact ih count curr hnd1.2 (fun e2 h2 => hcurr e2 (List.mem_cons_of_mem _ h2)) hc
      · intro m hmA hmB
        obtain ⟨sA, _hsA, _hlA, hfA⟩ := kcGo_mem _ (count - 1) _ (by omega) m hmA
        obtain ⟨sB, hsB, _hlB, hfB⟩ := kcGo_mem _ count curr hc m hmB
        have heA : Nat.testBit m e = true := by
          rw [hfA]
          apply testBit_foldl_lor_high
          rw [Nat.testBit_lor, Nat.testBit_two_pow_self, Bool.or_true]
        rw [hfB] at heA
        rcases testBit_foldl_lor_low sB curr e heA with h2 | ⟨x, hx, hxe⟩
        · rw [hcurr e (List.mem_cons_self _ _)] at h2
          exact Bool.false_ne_true h2
        · obtain ⟨e2, he2, rfl⟩ := List.mem_map.mp (hsB.subset hx)
          rw [Nat.testBit_two_pow] at hxe
          have he3 : e2 = e := of_decide_eq_true hxe
          exact hnd1.1 (he3 ▸ he2)

/-! ### Claim C3 -/

/-- Claim C3: for a list of distinct single-bit values and any k,
kCombinations returns exactly C(n, k) distinct bitmasks, each the union of
exactly k distinct elements of the list; it returns an empty result when
k = 0 and when k exceeds the list length. -/
theorem kCombinationsSpec (bits : List Nat) (k : Nat) (es : List Nat)
    (hb : bits = es.map (fun e => 2 ^ e)) (hnd : es.Nodup) :
    kCombinations bits 0 = [] ∧
    (bits.length < k → kCombinations bits k = []) ∧
    (1 ≤ k →
      (kCombinations bits k).length = Nat.choose bits.length k ∧
      (kCombinations bits k).Nodup ∧
      ∀ m ∈ kCombinations bits k, ∃ s : List Nat, s.Sublist bits ∧ s.Nodup ∧ s.length = k ∧
        m = s.foldl (fun x y => x ||| y) 0) := by
  subst hb
  refine ⟨rfl, ?_, fun hk => ⟨?_, ?_, ?_⟩⟩
  · intro hlt
    unfold kCombinations
    rw [if_pos (show k ≠ 0 by omega)]
    apply List.length_eq_zero.mp
    rw [kcGo_length _ k 0 (by omega), Nat.choose_eq_zero_of_lt hlt]
  · unfold kCombinations
    rw [if_pos (show k ≠ 0 by omega)]
    exact kcGo_length _ k 0 hk
  · unfold kCombinations
    rw [if_pos (show k ≠ 0 by omega)]
    exact kcGo_nodup es k 0 hnd (fun e _ => Nat.zero_testBit e) hk
  · intro m hm
    unfold kCombinations at hm
    rw [if_pos (show k ≠ 0 by omega)] at hm
    obtain ⟨s, hs, hl, hf⟩ := kcGo_mem _ k 0 hk m hm
    refine ⟨s, hs, ?_, hl, hf⟩
    exact List.Nodup.sublist hs (List.Nodup.map (Nat.pow_right_injective le_rfl) hnd)

/-- Witness for kCombinationsSpec on the list [1, 2, 4] with k = 2 (and the
empty results for k = 0 and k = 4). -/
theorem kCombinationsSpec_witness :
    kCombinations [1, 2, 4] 0 = [] ∧
    kCombinations [1, 2, 4] 4 = [] ∧
    (kCombinations [1, 2, 4] 2).length = Nat.choose 3 2 ∧
    (kCombinations [1, 2, 4] 2).Nodup ∧
    ∀ m ∈ kCombinations [1, 2, 4] 2, ∃ s : List Nat, s.Sublist [1, 2, 4] ∧ s.Nodup ∧ s.length = 2 ∧
      m = s.foldl (fun x y => x ||| y) 0 := by
  have h2 := kCombinationsSpec [1, 2, 4] 2 [0, 1, 2] (by decide) (by decide)
  have h4 := kCombinationsSpec [1, 2, 4] 4 [0, 1, 2] (by decide) (by decide)
  have h2c := h2.2.2 (by norm_num)
  exact ⟨h2.1, h4.2.1 (by norm_num), h2c.1, h2c.2.1, h2c.2.2⟩

end LetterPwn

namespace LetterPwn

/-! ### Soundness of the board position map -/

/-- The letter at position e of the board is c. -/
def boardAt (board : List Char) (e : Nat) (c : Char) : Prop :=
  ∃ he : e < board.length, board.get ⟨e, he⟩ = c

theorem pushPos_mem : ∀ (m : List (Char × List Nat)) (c : Char) (v : Nat) (c1 : Char)
    (ps1 : List Nat), (c1, ps1) ∈ pushPos m c v →
    (c1, ps1) ∈ m ∨ (c1 = c ∧ (ps1 = [v] ∨ ∃ ps, (c, ps) ∈ m ∧ ps1 = ps ++ [v])) := by
  intro m
  induction m with
  | nil =>
    intro c v c1 ps1 h
    simp only [pushPos, List.mem_singleton, Prod.mk.injEq] at h
    exact Or.inr ⟨h.1, Or.inl h.2⟩
  | cons hd tl ih =>
    intro c v c1 ps1 h
    obtain ⟨c2, ps2⟩ := hd
    simp only [pushPos] at h
    split_ifs at h with hc
    · subst hc
      rcases List.mem_cons.mp h with heq | htl
      · rw [Prod.mk.injEq] at heq
        exact Or.inr ⟨heq.1, Or.inr ⟨ps2, List.mem_cons_self _ _, heq.2⟩⟩
      · exact Or.inl (List.mem_cons_of_mem _ htl)
    · rcases List.mem_cons.mp h with heq | htl
      · exact Or.inl (List.mem_cons.mpr (Or.inl heq))
      · rcases ih c v c1 ps1 htl with h2 | ⟨rfl, h3⟩
        · exact Or.inl (List.mem_cons_of_mem _ h2)
        · rcases h3 with h4 | ⟨ps, hps, h5⟩
          · exact Or.inr ⟨rfl, Or.inl h4⟩
          · exact Or.inr ⟨rfl, Or.inr ⟨ps, List.mem_cons_of_mem _ hps, h5⟩⟩

theorem buildMap_sound (P : Nat → Char → Prop) :
    ∀ (cs : List Char) (i : Nat) (m : List (Char × List Nat)),
    (∀ k, (hk : k < cs.length) → P (i + k) (cs.get ⟨k, hk⟩)) →
    (∀ c ps, (c, ps) ∈ m → ∃ es : List Nat, ps = es.map (fun e => 2 ^ e) ∧ es.Nodup ∧
        ∀ e ∈ es, e < i ∧ P e c) →
    ∀ c ps, (c, ps) ∈ buildMap cs i m → ∃ es : List Nat, ps = es.map (fun e => 2 ^ e) ∧
        es.Nodup ∧ ∀ e ∈ es, e < i + cs.length ∧ P e c := by
  intro cs
  induction cs with
  | nil =>
    intro i m _ hm c ps h
    rw [buildMap] at h
    obtain ⟨es, h1, h2, h3⟩ := hm c ps h
    refine ⟨es, h1, h2, fun e he => ⟨?_, (h3 e he).2⟩⟩
    have := (h3 e he).1
    simp only [List.length_nil]
    omega
  | cons c0 cs ih =>
    intro i m hcs hm c ps h
    rw [buildMap] at h
    have hm2 : ∀ c1 ps1, (c1, ps1) ∈ pushPos m c0 (2 ^ i) →
        ∃ es : List Nat, ps1 = es.map (fun e => 2 ^ e) ∧ es.Nodup ∧
          ∀ e ∈ es, e < i + 1 ∧ P e c1 := by
      intro c1 ps1 h1
      have hPi : P i c0 := by
        have h0 := hcs 0 (by simp)
        simpa using h0
      rcases pushPos_mem m c0 (2 ^ i) c1 ps1 h1 with h2 | ⟨rfl, h3⟩
      · obtain ⟨es, e1, e2, e3⟩ := hm c1 ps1 h2
        exact ⟨es, e1, e2, fun e he => ⟨by have := (e3 e he).1; omega, (e3 e he).2⟩⟩
      · rcases h3 with rfl | ⟨ps2, hps2, rfl⟩
        · refine ⟨[i], by simp, List.nodup_singleton i, ?_⟩
          intro e he
          rw [List.mem_singleton] at he
          subst he
          exact ⟨by omega, hPi⟩
        · obtain ⟨es, e1, e2, e3⟩ := hm c1 ps2 hps2
          refine ⟨es ++ [i], by rw [e1, List.map_append]; rfl, ?_, ?_⟩
          · refine List.Nodup.append e2 (List.nodup_singleton i) ?_
            intro x hx hx2
            rw [List.mem_singleton] at hx2
            subst hx2
            exact absurd (e3 x hx).1 (lt_irrefl x)
          · intro e he
            rcases List.mem_append.mp he with h4 | h4
            · exact ⟨by have := (e3 e h4).1; omega, (e3 e h4).2⟩
            · rw [List.mem_singleton] at h4
              subst h4
              exact ⟨by omega, hPi⟩
    have hcs2 : ∀ k, (hk : k < cs.length) → P (i + 1 + k) (cs.get ⟨k, hk⟩) := by
      intro k hk
      have h0 := hcs (k + 1) (by simp only [List.length_cons]; omega)
      have harith : i + (k + 1) = i + 1 + k := by omega
      rwa [harith] at h0
    obtain ⟨es, e1, e2, e3⟩ := ih (i + 1) _ hcs2 hm2 c ps h
    refine ⟨es, e1, e2, fun e he => ⟨?_, (e3 e he).2⟩⟩
    have := (e3 e he).1
    simp only [List.length_cons]
    omega

theorem getBoardPositionMap_sound (board : List Char) (c : Char) (ps : List Nat)
    (h : (c, ps) ∈ getBoardPositionMap board) :
    ∃ es : List Nat, ps = es.map (fun e => 2 ^ e) ∧ es.Nodup ∧
      ∀ e ∈ es, boardAt board e c := by
  have hb := buildMap_sound (boardAt board) board 0 []
    (fun k hk => ⟨by simpa using hk, by simp⟩)
    (by intro c1 ps1 h1; simp at h1) c ps h
  obtain ⟨es, e1, e2, e3⟩ := hb
  exact ⟨es, e1, e2, fun e he => (e3 e he).2⟩

theorem lookupMap_mem : ∀ (m : List (Char × List Nat)) (c : Char) (ps : List Nat),
    lookupMap m c = some ps → (c, ps) ∈ m := by
  intro m
  induction m with
  | nil =>
    intro c ps h
    rw [lookupMap] at h
    exact absurd h (by simp)
  | cons hd tl ih =>
    intro c ps h
    obtain ⟨c1, ps1⟩ := hd
    simp only [lookupMap] at h
    split_ifs at h with hc
    · subst hc
      injection h with h2
      subst h2
      exact List.mem_cons_self _ _
    · exact List.mem_cons_of_mem _ (ih c ps h)

/-! ### The letter histogram -/

theorem incrCount_keys (c : Char) : ∀ (m : List (Char × Nat)),
    (incrCount m c).map Prod.fst =
      if c ∈ m.map Prod.fst then m.map Prod.fst else m.map Prod.fst ++ [c] := by
  intro m
  induction m with
  | nil => simp [incrCount]
  | cons hd tl ih =>
    obtain ⟨c1, n1⟩ := hd
    simp only [incrCount, List.map_cons]
    split_ifs with h1 h2 h2
    · rw [List.map_cons]
    · rw [List.mem_cons] at h2
      subst h1
      exact absurd (Or.inl rfl) h2
    · rw [List.mem_cons] at h2
      rcases h2 with h3 | h3
      · exact absurd h3.symm h1
      · rw [List.map_cons, ih, if_pos h3]
    · rw [List.mem_cons] at h2
      rw [List.map_cons, ih, if_neg (fun h4 => h2 (Or.inr h4)), List.cons_append]

theorem countByIdentity_keys_nodup_aux : ∀ (ls : List Char) (m : List (Char × Nat)),
    (m.map Prod.fst).Nodup → ((ls.foldl incrCount m).map Prod.fst).Nodup := by
  intro ls
  induction ls with
  | nil => intro m h; exact h
  | cons c ls ih =>
    intro m h
    rw [List.foldl_cons]
    apply ih
    rw [incrCount_keys]
    split_ifs with h1
    · exact h
    · exact List.Nodup.append h (List.nodup_singleton c)
        (fun x hx hx2 => h1 ((List.mem_singleton.mp hx2) ▸ hx))

theorem countByIdentity_keys_nodup (ls : List Char) :
    ((countByIdentity ls).map Prod.fst).Nodup :=
  countByIdentity_keys_nodup_aux ls [] (by simp)

theorem incrCount_sum (c : Char) : ∀ (m : List (Char × Nat)),
    ((incrCount m c).map Prod.snd).sum = (m.map Prod.snd).sum + 1 := by
  intro m
  induction m with
  | nil => simp [incrCount]
  | cons hd tl ih =>
    obtain ⟨c1, n1⟩ := hd
    simp only [incrCount]
    split_ifs with h1
    · simp only [List.map_cons, List.sum_cons]
      omega
    · simp only [List.map_cons, List.sum_cons, ih]
      omega

theorem countByIdentity_sum_aux : ∀ (ls : List Char) (m : List (Char × Nat)),
    ((ls.foldl incrCount m).map Prod.snd).sum = (m.map Prod.snd).sum + ls.length := by
  intro ls
  induction ls with
  | nil => intro m; simp
  | cons c ls ih =>
    intro m
    rw [List.foldl_cons, ih, incrCount_sum, List.length_cons]
    omega

theorem countByIdentity_sum (ls : List Char) :
    ((countByIdentity ls).map Prod.snd).sum = ls.length := by
  have := countByIdentity_sum_aux ls []
  simpa [countByIdentity] using this

end LetterPwn

namespace LetterPwn

/-! ### Bits of combination masks stay within their letter's positions -/

/-- Every set bit of x sits at a board position holding the letter c. -/
def inLetter (board : List Char) (c : Char) (x : Nat) : Prop :=
  ∀ j, Nat.testBit x j = true → boardAt board j c

/-- Every set bit of x sits at a board position holding a letter from cs. -/
def inLetters (board : List Char) (cs : List Char) (x : Nat) : Prop :=
  ∀ j, Nat.testBit x j = true → ∃ hj : j < board.length, board.get ⟨j, hj⟩ ∈ cs

theorem land_two_pow_eq_zero (curr e : Nat) (h : Nat.testBit curr e = false) :
    curr &&& 2 ^ e = 0 := by
  apply Nat.eq_of_testBit_eq
  intro j
  rw [Nat.testBit_land, Nat.zero_testBit]
  by_cases hj : e = j
  · subst hj
    rw [h]
    rfl
  · rw [Nat.testBit_two_pow_of_ne hj, Bool.and_false]

theorem countBits_foldl_two_pow : ∀ (es : List Nat) (curr : Nat), es.Nodup →
    (∀ e ∈ es, Nat.testBit curr e = false) →
    countBits ((es.map (fun e => 2 ^ e)).foldl (fun x y => x ||| y) curr)
      = countBits curr + es.length := by
  intro es
  induction es with
  | nil => intro curr _ _; simp
  | cons e es ih =>
    intro curr hnd hcurr
    have hnd1 := List.nodup_cons.mp hnd
    have hstep : ∀ e2 ∈ es, Nat.testBit (curr ||| 2 ^ e) e2 = false := by
      intro e2 h2
      rw [Nat.testBit_lor, hcurr e2 (List.mem_cons_of_mem _ h2),
        Nat.testBit_two_pow_of_ne (fun he => hnd1.1 (by rw [he]; exact h2))]
      rfl
    rw [List.map_cons, List.foldl_cons, ih (curr ||| 2 ^ e) hnd1.2 hstep,
      countBits_lor_disjoint curr (2 ^ e)
        (land_two_pow_eq_zero curr e (hcurr e (List.mem_cons_self _ _))),
      countBits_two_pow, List.length_cons]
    omega

theorem group_sound (board : List Char) (c : Char) (k : Nat) (g : List Nat)
    (h : kCombinationsAt (lookupMap (getBoardPositionMap board) c) k = Except.ok g) :
    ∀ x ∈ g, countBits x = k ∧ inLetter board c x := by
  intro x hx
  unfold kCombinationsAt at h
  by_cases hk : k = 0
  · subst hk
    rw [if_neg (by simp)] at h
    injection h with h2
    subst h2
    simp at hx
  · rw [if_pos (by omega)] at h
    cases hl : lookupMap (getBoardPositionMap board) c with
    | none => rw [hl] at h; exact Except.noConfusion h
    | some ps =>
      rw [hl] at h
      injection h with h2
      subst h2
      obtain ⟨es, he1, he2, he3⟩ :=
        getBoardPositionMap_sound board c ps (lookupMap_mem _ _ _ hl)
      subst he1
      obtain ⟨s, hs, hlen, hf⟩ := kcGo_mem _ k 0 (by omega) x hx
      obtain ⟨es2, hes2, rfl⟩ := List.sublist_map_iff.mp hs
      constructor
      · have hlen2 : es2.length = k := by rw [← hlen, List.length_map]
        rw [hf, countBits_foldl_two_pow es2 0 (List.Nodup.sublist hes2 he2)
          (fun e _ => Nat.zero_testBit e), countBits_zero, Nat.zero_add, hlen2]
      · intro j hj
        rw [hf] at hj
        rcases testBit_foldl_lor_low _ _ _ hj with h2 | ⟨y, hy, hyj⟩
        · rw [Nat.zero_testBit] at h2
          exact absurd h2 (by simp)
        · obtain ⟨e2, he2mem, rfl⟩ := List.mem_map.mp hy
          rw [Nat.testBit_two_pow] at hyj
          have hje : e2 = j := of_decide_eq_true hyj
          subst hje
          exact he3 e2 (hes2.subset he2mem)

theorem pcGo_mem : ∀ (g : List Nat) (rest : List (List Nat)) (curr m : Nat),
    m ∈ pcGo g rest curr →
    ∃ o ∈ g, (rest = [] ∧ m = curr ||| o) ∨
      ∃ g2 gs2, rest = g2 :: gs2 ∧ m ∈ pcGo g2 gs2 (curr ||| o) := by
  intro g
  induction g with
  | nil =>
    intro rest curr m h
    simp [pcGo] at h
  | cons o os ih =>
    intro rest curr m h
    cases rest with
    | nil =>
      simp only [pcGo] at h
      rcases List.mem_append.mp h with h1 | h2
      · rw [List.mem_singleton] at h1
        exact ⟨o, List.mem_cons_self _ _, Or.inl ⟨rfl, h1⟩⟩
      · obtain ⟨o2, ho2, hcase⟩ := ih [] curr m h2
        exact ⟨o2, List.mem_cons_of_mem _ ho2, hcase⟩
    | cons g2 gs2 =>
      simp only [pcGo] at h
      rcases List.mem_append.mp h with h1 | h2
      · exact ⟨o, List.mem_cons_self _ _, Or.inr ⟨g2, gs2, rfl, h1⟩⟩
      · obtain ⟨o2, ho2, hcase⟩ := ih (g2 :: gs2) curr m h2
        exact ⟨o2, List.mem_cons_of_mem _ ho2, hcase⟩

theorem land_eq_zero_of_letters (board : List Char) (csPrev : List Char) (c : Char)
    (hc : c ∉ csPrev) (curr o : Nat) (hcurr : inLetters board csPrev curr)
    (ho : inLetter board c o) : curr &&& o = 0 := by
  apply Nat.eq_of_testBit_eq
  intro j
  rw [Nat.testBit_land, Nat.zero_testBit]
  cases h1 : Nat.testBit curr j with
  | false => rfl
  | true =>
    cases h2 : Nat.testBit o j with
    | false => rfl
    | true =>
      obtain ⟨hj, hmem⟩ := hcurr j h1
      obtain ⟨hj2, hc2⟩ := ho j h2
      have hgg : board.get ⟨j, hj⟩ = board.get ⟨j, hj2⟩ := rfl
      rw [hgg, hc2] at hmem
      exact absurd hmem hc

theorem inLetters_lor (board : List Char) (csPrev : List Char) (c : Char) (curr o : Nat)
    (hcurr : inLetters board csPrev curr) (ho : inLetter board c o) :
    inLetters board (csPrev ++ [c]) (curr ||| o) := by
  intro j hj
  rw [Nat.testBit_lor] at hj
  rcases Bool.or_eq_true_iff.mp hj with h1 | h1
  · obtain ⟨hjl, hmem⟩ := hcurr j h1
    exact ⟨hjl, List.mem_append_left _ hmem⟩
  · obtain ⟨hjl, hc2⟩ := ho j h1
    refine ⟨hjl, List.mem_append_right _ ?_⟩
    rw [hc2]
    exact List.mem_singleton_self c

/-- The top entry of flattenCombos: pcGo on the head group when one exists. -/
def pcAll : List (List Nat) → Nat → List Nat
  | [], _ => []
  | g :: gs, curr => pcGo g gs curr

theorem flattenCombos_eq_pcAll (gs : List (List Nat)) : flattenCombos gs = pcAll gs 0 := by
  cases gs with
  | nil => rfl
  | cons g gs2 => simp [flattenCombos, pcAll]

theorem pc_sound (board : List Char) :
    ∀ (lcs : List (Char × Nat)) (gs : List (List Nat)) (curr : Nat) (csPrev : List Char),
    List.Forall₂ (fun (ck : Char × Nat) (g : List Nat) =>
      ∀ x ∈ g, countBits x = ck.2 ∧ inLetter board ck.1 x) lcs gs →
    (lcs.map Prod.fst).Nodup →
    List.Disjoint csPrev (lcs.map Prod.fst) →
    inLetters board csPrev curr →
    ∀ m ∈ pcAll gs curr,
      countBits m = countBits curr + (lcs.map Prod.snd).sum ∧
      inLetters board (csPrev ++ lcs.map Prod.fst) m := by
  intro lcs
  induction lcs with
  | nil =>
    intro gs curr csPrev hf _ _ _ m hm
    cases hf
    simp [pcAll] at hm
  | cons ck lcs ih =>
    intro gs curr csPrev hf hnd hdisj hcurr m hm
    cases gs with
    | nil => cases hf
    | cons g gs2 =>
      have hg : ∀ x ∈ g, countBits x = ck.2 ∧ inLetter board ck.1 x := by
        cases hf with | cons h1 h2 => exact h1
      have hf2 : List.Forall₂ (fun (ck : Char × Nat) (g : List Nat) =>
          ∀ x ∈ g, countBits x = ck.2 ∧ inLetter board ck.1 x) lcs gs2 := by
        cases hf with | cons h1 h2 => exact h2
      simp only [pcAll] at hm
      obtain ⟨o, ho, hcase⟩ := pcGo_mem g gs2 curr m hm
      obtain ⟨hcb, hin⟩ := hg o ho
      have hknotin : ck.1 ∉ csPrev := by
        intro hmem
        exact hdisj hmem (by simp)
      have hdco : curr &&& o = 0 :=
        land_eq_zero_of_letters board csPrev ck.1 hknotin curr o hcurr hin
      have hcb2 : countBits (curr ||| o) = countBits curr + ck.2 := by
        rw [countBits_lor_disjoint curr o hdco, hcb]
      have hcurr2 : inLetters board (csPrev ++ [ck.1]) (curr ||| o) :=
        inLetters_lor board csPrev ck.1 curr o hcurr hin
      rw [List.map_cons] at hnd
      have hnd1 := List.nodup_cons.mp hnd
      rcases hcase with ⟨hrest, rfl⟩ | ⟨g2, gs3, rfl, hm2⟩
      · subst hrest
        cases hf2
        refine ⟨?_, ?_⟩
        · rw [hcb2]
          simp
        · simpa using hcurr2
      · have hdisj2 : List.Disjoint (csPrev ++ [ck.1]) (lcs.map Prod.fst) := by
          intro a ha ha2
          rcases List.mem_append.mp ha with h3 | h3
          · refine hdisj h3 ?_
            simp only [List.map_cons, List.mem_cons]
            exact Or.inr ha2
          · rw [List.mem_singleton] at h3
            subst h3
            exact hnd1.1 ha2
        obtain ⟨hc1, hc2⟩ := ih (g2 :: gs3) (curr ||| o) (csPrev ++ [ck.1]) hf2
          hnd1.2 hdisj2 hcurr2 m (by simpa [pcAll] using hm2)
        refine ⟨?_, ?_⟩
        · rw [hc1, hcb2]
          simp only [List.map_cons, List.sum_cons]
          omega
        · have hre : (csPrev ++ [ck.1]) ++ lcs.map Prod.fst =
              csPrev ++ (ck :: lcs).map Prod.fst := by
            simp
          rwa [hre] at hc2

theorem collectPosCombos_sound (bpm : List (Char × List Nat)) :
    ∀ (lcs : List (Char × Nat)) (gs : List (List Nat)),
    collectPosCombos bpm lcs = Except.ok gs →
    List.Forall₂ (fun (ck : Char × Nat) (g : List Nat) =>
      kCombinationsAt (lookupMap bpm ck.1) ck.2 = Except.ok g) lcs gs := by
  intro lcs
  induction lcs with
  | nil =>
    intro gs h
    rw [collectPosCombos] at h
    injection h with h2
    subst h2
    exact List.Forall₂.nil
  | cons ck rest ih =>
    intro gs h
    rw [collectPosCombos] at h
    cases hk : kCombinationsAt (lookupMap bpm ck.1) ck.2 with
    | error e =>
      simp only [hk] at h
      exact Except.noConfusion h
    | ok g =>
      simp only [hk] at h
      cases hr : collectPosCombos bpm rest with
      | error e =>
        simp only [hr] at h
        exact Except.noConfusion h
      | ok gs2 =>
        simp only [hr] at h
        injection h with h2
        subst h2
        exact List.Forall₂.cons hk (ih gs2 hr)

theorem movesForWord_sound (board : List Char) (w : WordStruct) (ms : List RawMove)
    (h : movesForWord (getBoardPositionMap board) w = Except.ok ms) :
    ∀ wm ∈ ms, wm.1 = w ∧ countBits wm.2 = w.letters.length ∧
      ∀ j, Nat.testBit wm.2 j = true → j < board.length := by
  unfold movesForWord at h
  cases hc : collectPosCombos (getBoardPositionMap board) (countByIdentity w.letters) with
  | error e =>
    rw [hc] at h
    exact Except.noConfusion h
  | ok pcs =>
    rw [hc] at h
    injection h with h2
    subst h2
    intro wm hwm
    obtain ⟨m, hm, rfl⟩ := List.mem_map.mp hwm
    rw [flattenCombos_eq_pcAll] at hm
    have hf2 := List.Forall₂.imp
      (fun ck g hg => group_sound board ck.1 ck.2 g hg)
      (collectPosCombos_sound _ _ _ hc)
    have hres := pc_sound board (countByIdentity w.letters) pcs 0 [] hf2
      (countByIdentity_keys_nodup w.letters)
      (fun a ha _ => absurd ha (List.not_mem_nil a))
      (fun j hj => absurd hj (by simp))
      m hm
    obtain ⟨h1, h2⟩ := hres
    refine ⟨rfl, ?_, ?_⟩
    · rw [h1, countBits_zero, Nat.zero_add, countByIdentity_sum]
    · intro j hj
      obtain ⟨hjl, _⟩ := h2 j hj
      exact hjl

theorem getMovesForBoardGo_mem (bpm : List (Char × List Nat)) :
    ∀ (ws : List WordStruct) (moves : List RawMove),
    getMovesForBoardGo bpm ws = Except.ok moves →
    ∀ wm ∈ moves, ∃ w msw, movesForWord bpm w = Except.ok msw ∧ wm ∈ msw := by
  intro ws
  induction ws with
  | nil =>
    intro moves h wm hwm
    rw [getMovesForBoardGo] at h
    injection h with h2
    subst h2
    simp at hwm
  | cons w ws ih =>
    intro moves h wm hwm
    rw [getMovesForBoardGo] at h
    cases hk : movesForWord bpm w with
    | error e =>
      simp only [hk] at h
      exact Except.noConfusion h
    | ok ms =>
      simp only [hk] at h
      cases hr : getMovesForBoardGo bpm ws with
      | error e =>
        simp only [hr] at h
        exact Except.noConfusion h
      | ok rest =>
        simp only [hr] at h
        injection h with h2
        subst h2
        rcases List.mem_append.mp hwm with h3 | h3
        · exact ⟨w, ms, hk, h3⟩
        · exact ih rest hr wm h3

/-! ### Claim C7 -/

/-- Claim C7: every RawMove produced by getMovesForBoard carries a placement
bitmask with exactly as many set bits as the word has letters, every set bit
lying at a position within the board. -/
theorem rawMoveBitsSpec (board : List Char) (ws : List WordStruct)
    (moves : List RawMove) (h : getMovesForBoard board ws = Except.ok moves) :
    ∀ wm ∈ moves, countBits wm.2 = wm.1.letters.length ∧
      ∀ j, Nat.testBit wm.2 j = true → j < board.length := by
  unfold getMovesForBoard at h
  intro wm hwm
  obtain ⟨w, msw, hk, hmem⟩ := getMovesForBoardGo_mem _ ws moves h wm hwm
  obtain ⟨hw, hcb, hbits⟩ := movesForWord_sound board w msw hk wm hmem
  subst hw
  exact ⟨hcb, hbits⟩

end LetterPwn

namespace LetterPwn

/-- Witness for rawMoveBitsSpec on the scenario-B board and word. -/
theorem rawMoveBitsSpec_witness :
    getMovesForBoard ['a', 'b', 'c', 'b'] [cabWord] =
        Except.ok [(cabWord, 7), (cabWord, 13)] ∧
    ∀ wm ∈ ([(cabWord, 7), (cabWord, 13)] : List RawMove),
      countBits wm.2 = wm.1.letters.length ∧
      ∀ j, Nat.testBit wm.2 j = true → j < (['a', 'b', 'c', 'b'] : List Char).length := by
  have hmv : getMovesForBoard ['a', 'b', 'c', 'b'] [cabWord] =
      Except.ok [(cabWord, 7), (cabWord, 13)] := by
    simp [getMovesForBoard, getMovesForBoardGo, movesForWord, collectPosCombos, countByIdentity,
      incrCount, getBoardPositionMap, buildMap, pushPos, lookupMap, kCombinationsAt, kcGo,
      flattenCombos, pcGo]
  exact ⟨hmv, rawMoveBitsSpec _ _ _ hmv⟩

end LetterPwn
